import Mathlib

/-!
# System monitor: sampling-and-delta engine

A shallow embedding of `systemMonitor.cpp`:

* C++ `float` is IEEE-754 binary32 with round-to-nearest, ties-to-even, and every
  operation is rounded to binary32 (`FLT_EVAL_METHOD` 0, as on x86-64 and AArch64).  A
  float is modelled by `F32`: a finite value carried as the rational number it denotes,
  an infinity with its sign, or NaN.  Every arithmetic result goes through `F32.round`,
  which implements the binary32 rounding (24-bit significand, subnormals below
  `2^-126`, overflow to infinity at `2^128`).  The sign of zero is not tracked: every
  zero divisor in the program is the conversion of an integer, hence `+0`.
* `unsigned long long` is a natural number with every operation reduced modulo `2^64`.
* `long` is an integer; signed overflow (undefined in C++) is not modelled.
* The files under `/proc` are inputs: the values `readCPUStat` parses, the
  `label value` lines of `/proc/meminfo`, and the numeric directory entries of `/proc`
  each with the fields of its `stat` line (or none when the line cannot be read).
* `std::sort` is a parameter of the main loop constrained by its library contract;
  `stdSort` is the insertion sort libstdc++ runs on ranges of at most 16 elements.
-/

namespace SystemMonitor

/-! ## binary32 rounding -/

/-- Bit length minus one of `n`, by repeated halving (`fuel` bounds the halvings). -/
def log2Fuel : Nat → Nat → Nat
  | 0, _ => 0
  | fuel + 1, n => if n < 2 then 0 else log2Fuel fuel (n / 2) + 1

/-- Floor of the base-2 logarithm of a positive natural number. -/
def natLog2 (n : Nat) : Nat := log2Fuel n n

/-- Floor of the base-2 logarithm of a positive rational: the `e` with
`2^e ≤ x < 2^(e+1)`. -/
def ilog2 (x : ℚ) : ℤ :=
  let k : ℤ := (natLog2 x.num.toNat : ℤ) - (natLog2 x.den : ℤ)
  if (2 : ℚ) ^ k ≤ x then k else k - 1

/-- Round a rational to the nearest integer, ties to the even one. -/
def roundHalfEven (x : ℚ) : ℤ :=
  let f : ℤ := ⌊x⌋
  let r : ℚ := x - f
  if r < 1 / 2 then f
  else if 1 / 2 < r then f + 1
  else if f % 2 = 0 then f else f + 1

/-- Exponent of the unit in the last place of binary32 at magnitude `a`: 24 significant
bits for normal numbers, `2^-149` throughout the subnormal range. -/
def ulpExp (a : ℚ) : ℤ := max (ilog2 a) (-126) - 23

/-- Nearest binary32 magnitude to `a ≥ 0` (exponent unbounded above). -/
def roundMag (a : ℚ) : ℚ :=
  (roundHalfEven (a / (2 : ℚ) ^ ulpExp a) : ℚ) * (2 : ℚ) ^ ulpExp a

/-- Nearest binary32 value to `x` as a rational (exponent unbounded above). -/
def roundQ (x : ℚ) : ℚ := if x < 0 then -roundMag (-x) else roundMag x

/-- A C++ `float`. -/
inductive F32 where
  | fin (v : ℚ)
  | inf (neg : Bool)
  | nan
  deriving DecidableEq

namespace F32

/-- Round a real result to binary32: overflow gives the infinity of the same sign. -/
def round (x : ℚ) : F32 :=
  if (2 : ℚ) ^ (128 : ℕ) ≤ |roundQ x| then .inf (decide (x < 0)) else .fin (roundQ x)

/-- The conversion `(float)n` of an `unsigned long long`. -/
def ofNat (n : Nat) : F32 := round (n : ℚ)

/-- The conversion `(float)i` of a `long`. -/
def ofInt (i : Int) : F32 := round (i : ℚ)

/-- IEEE-754 division. -/
def div : F32 → F32 → F32
  | .nan, _ => .nan
  | _, .nan => .nan
  | .inf _, .inf _ => .nan
  | .inf s, .fin b => .inf (xor s (decide (b < 0)))
  | .fin _, .inf _ => .fin 0
  | .fin a, .fin b =>
    if b = 0 then (if a = 0 then .nan else .inf (decide (a < 0))) else round (a / b)

/-- IEEE-754 multiplication. -/
def mul : F32 → F32 → F32
  | .nan, _ => .nan
  | _, .nan => .nan
  | .inf s, .inf t => .inf (xor s t)
  | .inf s, .fin b => if b = 0 then .nan else .inf (xor s (decide (b < 0)))
  | .fin a, .inf t => if a = 0 then .nan else .inf (xor (decide (a < 0)) t)
  | .fin a, .fin b => round (a * b)

/-- The comparison `a < b` of two floats (false when either is NaN). -/
def lt : F32 → F32 → Bool
  | .fin a, .fin b => decide (a < b)
  | .fin _, .inf t => !t
  | .inf s, .fin _ => s
  | .inf s, .inf t => s && !t
  | _, _ => false

/-- The comparison `a <= b` of two floats (false when either is NaN). -/
def le : F32 → F32 → Bool
  | .fin a, .fin b => decide (a ≤ b)
  | .fin _, .inf t => !t
  | .inf s, .fin _ => s
  | .inf s, .inf t => s || !t
  | _, _ => false

/-- The comparison `a > b` of two floats. -/
def gt (a b : F32) : Bool := lt b a

/-- A float lies in the closed interval `[0, 100]`. -/
def inPercentRange (x : F32) : Prop := le (.fin 0) x = true ∧ le x (.fin 100) = true

end F32

/-- The expression `(float)num / den * 100.0f` on two `unsigned long long` operands. -/
def pctF32 (num den : Nat) : F32 :=
  F32.mul (F32.div (F32.ofNat num) (F32.ofNat den)) (.fin 100)

/-- The value of `num / den * 100` in binary32 arithmetic, each operation (the two
conversions, the division, the multiplication) rounded to nearest. -/
def pctQ (num den : ℚ) : ℚ := roundQ (roundQ (roundQ num / roundQ den) * 100)

/-! ## Machine integers -/

/-- Modulus of `unsigned long long` arithmetic, `2^64`. -/
def U64 : Nat := 18446744073709551616

/-- Subtraction of two `unsigned long long` values (wraps modulo `2^64`). -/
def sub64 (a b : Nat) : Nat := (a + (U64 - b % U64)) % U64

/-- Addition of two `unsigned long long` values (wraps modulo `2^64`). -/
def add64 (a b : Nat) : Nat := (a + b) % U64

/-- Multiplication of two `unsigned long long` values (wraps modulo `2^64`). -/
def mul64 (a b : Nat) : Nat := (a * b) % U64

/-- Conversion of a `long` to `unsigned long long` (the usual arithmetic conversion applied
to `ticksPerSec` in `totalDiff * ticksPerSec`). -/
def longToU64 (i : Int) : Nat := (i % (U64 : Int)).toNat

/-- The struct `CPUData`. -/
structure CPUData where
  total : Nat
  idle : Nat
  deriving DecidableEq

/-- Both fields of a `CPUData` are `unsigned long long` values. -/
def CPUData.inRange (d : CPUData) : Prop := d.total < U64 ∧ d.idle < U64

/-- The eight counters of the first line of `/proc/stat`. -/
structure CpuStatLine where
  user : Nat
  nice : Nat
  system : Nat
  idle : Nat
  iowait : Nat
  irq : Nat
  softirq : Nat
  steal : Nat

/-- The function `readCPUStat`, on the parsed counters. -/
def readCPUStat (l : CpuStatLine) : CPUData :=
  { total := add64 (add64 (add64 (add64 (add64 (add64 (add64 l.user l.nice) l.system) l.idle)
      l.iowait) l.irq) l.softirq) l.steal,
    idle := add64 l.idle l.iowait }

/-- The function `getCPUUsagePercent` with the float division as a parameter, so that
a path which returns before the division is a path whose result does not depend on it. -/
def getCPUUsagePercentWith (fdiv : F32 → F32 → F32) (prev curr : CPUData) : F32 :=
  let diffTotal := sub64 curr.total prev.total
  let diffIdle := sub64 curr.idle prev.idle
  if diffTotal = 0 then .fin 0
  else F32.mul (fdiv (F32.ofNat (sub64 diffTotal diffIdle)) (F32.ofNat diffTotal)) (.fin 100)

/-- The function `getCPUUsagePercent`. -/
def getCPUUsagePercent (prev curr : CPUData) : F32 :=
  getCPUUsagePercentWith F32.div prev curr

/-- The four `long` locals of `getMemoryUsagePercent`. -/
structure MemInfo where
  totalMem : Int
  freeMem : Int
  buffers : Int
  cached : Int
  deriving DecidableEq

/-- The scanning loop of `getMemoryUsagePercent` over the `label value` lines of
`/proc/meminfo`: a matching label overwrites its local, any other label is skipped. -/
def scanMemInfo : List (String × Int) → MemInfo → MemInfo
  | [], m => m
  | (label, v) :: rest, m =>
    if label = "MemTotal:" then scanMemInfo rest { m with totalMem := v }
    else if label = "MemFree:" then scanMemInfo rest { m with freeMem := v }
    else if label = "Buffers:" then scanMemInfo rest { m with buffers := v }
    else if label = "Cached:" then scanMemInfo rest { m with cached := v }
    else scanMemInfo rest m

/-- The last two statements of `getMemoryUsagePercent`. -/
def memPercent (m : MemInfo) : F32 :=
  let used : Int := m.totalMem - m.freeMem - m.buffers - m.cached
  F32.mul (F32.div (F32.ofInt used) (F32.ofInt m.totalMem)) (.fin 100)

/-- The function `getMemoryUsagePercent`, on the lines of `/proc/meminfo`. -/
def getMemoryUsagePercent (lines : List (String × Int)) : F32 :=
  memPercent (scanMemInfo lines ⟨0, 0, 0, 0⟩)

/-! ## Process table -/

/-- The struct `ProcessInfo`. -/
structure ProcessInfo where
  pid : Int
  name : String
  cpuUsage : F32
  memUsage : F32
  lastCpuTime : Nat
  deriving DecidableEq

/-- The tokens of `/proc/<pid>/stat` that `getProcesses` uses: `tokens[1]`, `tokens[13]`,
`tokens[14]` and `tokens[23]`. -/
structure ProcStat where
  comm : String
  utime : Nat
  stime : Nat
  rss : Int

/-- A numeric directory entry of `/proc`; `stat` is `none` when the stat file cannot be
opened or has fewer than 24 tokens. -/
structure ProcEntry where
  pid : Int
  stat : Option ProcStat

/-- The loop `for (const auto& p : prevProcs)` of `getProcesses`, started from
`cpuUsage = 0.0f`: the first row with the same PID decides. -/
def prevCpuUsage (pid : Int) (totalTime totalDiff : Nat) (ticksPerSec : Int) :
    List ProcessInfo → F32
  | [] => .fin 0
  | p :: rest =>
    if p.pid = pid then
      pctF32 (sub64 totalTime p.lastCpuTime) (mul64 totalDiff (longToU64 ticksPerSec))
    else prevCpuUsage pid totalTime totalDiff ticksPerSec rest

/-- The row of the previous table at which the loop of `getProcesses` stops: the first
one with the given PID. -/
def matchedPrev (prevProcs : List ProcessInfo) (pid : Int) : Option ProcessInfo :=
  prevProcs.find? (fun p => decide (p.pid = pid))

/-- The row `getProcesses` pushes for one readable stat line. -/
def procRow (pageSizeKb : Int) (prevProcs : List ProcessInfo) (totalDiff : Nat)
    (ticksPerSec : Int) (pid : Int) (s : ProcStat) : ProcessInfo :=
  let totalTime := add64 s.utime s.stime
  { pid := pid
    name := s.comm
    cpuUsage := prevCpuUsage pid totalTime totalDiff ticksPerSec prevProcs
    memUsage := F32.div (F32.ofInt (s.rss * pageSizeKb)) (.fin 1024)
    lastCpuTime := totalTime }

/-- The `readdir` loop of `getProcesses`. -/
def getProcessesLoop (pageSizeKb : Int) (prevProcs : List ProcessInfo) (totalDiff : Nat)
    (ticksPerSec : Int) : List ProcEntry → List ProcessInfo
  | [] => []
  | e :: rest =>
    match e.stat with
    | none => getProcessesLoop pageSizeKb prevProcs totalDiff ticksPerSec rest
    | some s =>
      procRow pageSizeKb prevProcs totalDiff ticksPerSec e.pid s ::
        getProcessesLoop pageSizeKb prevProcs totalDiff ticksPerSec rest

/-- The function `getProcesses`; `proc` is `none` when `opendir` fails.  `pageSizeKb` is
`sysconf(_SC_PAGE_SIZE) / 1024`. -/
def getProcesses (pageSizeKb : Int) (proc : Option (List ProcEntry))
    (prevProcs : List ProcessInfo) (totalDiff : Nat) (ticksPerSec : Int) : List ProcessInfo :=
  match proc with
  | none => []
  | some entries => getProcessesLoop pageSizeKb prevProcs totalDiff ticksPerSec entries

/-- The PIDs of a `/proc` listing. -/
def listedPids (proc : Option (List ProcEntry)) : List Int :=
  match proc with
  | none => []
  | some entries => entries.map (fun e => e.pid)

/-! ## Sorting -/

/-- The comparator passed to `std::sort` in `main`. -/
def cpuGreater (a b : ProcessInfo) : Bool := F32.gt a.cpuUsage b.cpuUsage

/-- What `std::sort(first, last, comp)` guarantees of the range it leaves: the same
elements, and no element ordered by `comp` before one that precedes it. -/
def StdSortPost {α : Type} (comp : α → α → Bool) (input out : List α) : Prop :=
  out.Perm input ∧ out.Pairwise (fun a b => comp b a = false)

/-- What `std::sort` requires of `comp` on the range it is given: a strict weak ordering,
that is, `comp` is asymmetric and "not ordered before" is transitive. -/
def StrictWeakOn {α : Type} (comp : α → α → Bool) (l : List α) : Prop :=
  (∀ a b, a ∈ l → b ∈ l → comp a b = true → comp b a = false)
    ∧ (∀ a b c, a ∈ l → b ∈ l → c ∈ l → comp a b = false → comp b c = false →
        comp a c = false)

/-- The library contract of `std::sort` for a function standing in for it: on every range
on which the comparator is a strict weak ordering, the postcondition holds. -/
def StdSortContract {α : Type} (sortFn : (α → α → Bool) → List α → List α) : Prop :=
  ∀ (comp : α → α → Bool) (l : List α), StrictWeakOn comp l → StdSortPost comp l (sortFn comp l)

/-- The loop of `__unguarded_linear_insert` on the sorted prefix, nearest neighbour first:
`val` moves left past every element it is ordered before. -/
def linearInsert {α : Type} (comp : α → α → Bool) (val : α) : List α → List α
  | [] => [val]
  | e :: rest => if comp val e then e :: linearInsert comp val rest else val :: e :: rest

/-- One iteration of `__insertion_sort` on the sorted prefix held in reverse: an element
ordered before the first one goes to the front, any other is inserted linearly. -/
def insertionStep {α : Type} (comp : α → α → Bool) (revPrefix : List α) (val : α) : List α :=
  match revPrefix.getLast? with
  | none => [val]
  | some first =>
    if comp val first then revPrefix ++ [val] else linearInsert comp val revPrefix

/-- Insertion sort as libstdc++ runs it for `std::sort` on a range of at most 16
elements. -/
def stdSort {α : Type} (comp : α → α → Bool) (l : List α) : List α :=
  (l.foldl (insertionStep comp) []).reverse

/-! ## Main loop -/

/-- The variables `main` keeps from one iteration to the next. -/
structure MonitorState where
  prevCPU : CPUData
  prevProcs : List ProcessInfo

/-- What one iteration reads from `/proc`. -/
structure Snapshot where
  cpu : CpuStatLine
  mem : List (String × Int)
  proc : Option (List ProcEntry)

/-- The arguments of one call of `display`. -/
structure Frame where
  processes : List ProcessInfo
  cpu : F32
  mem : F32

/-- The statements of `main` before the loop. -/
def mainInit (ticksPerSec pageSizeKb : Int) (s : Snapshot) : MonitorState :=
  { prevCPU := readCPUStat s.cpu
    prevProcs := getProcesses pageSizeKb s.proc [] 1 ticksPerSec }

/-- One iteration of the loop of `main` up to the call of `display` (the keyboard
handling that follows changes none of the kept variables). -/
def mainCycle (sortFn : (ProcessInfo → ProcessInfo → Bool) → List ProcessInfo → List ProcessInfo)
    (ticksPerSec pageSizeKb : Int) (st : MonitorState) (s : Snapshot) : MonitorState × Frame :=
  let currCPU := readCPUStat s.cpu
  let cpuUsage := getCPUUsagePercent st.prevCPU currCPU
  let totalDiff := sub64 currCPU.total st.prevCPU.total
  let memUsage := getMemoryUsagePercent s.mem
  let processes := getProcesses pageSizeKb s.proc st.prevProcs totalDiff ticksPerSec
  ({ prevCPU := currCPU, prevProcs := processes },
   { processes := sortFn cpuGreater processes, cpu := cpuUsage, mem := memUsage })

/-- A state whose table holds PIDs 200, 100 and 300, each with 100 ticks. -/
def tieState : MonitorState :=
  { prevCPU := ⟨1000, 800⟩
    prevProcs := [⟨200, "a", .fin 0, .fin 0, 100⟩, ⟨100, "b", .fin 0, .fin 0, 100⟩,
      ⟨300, "c", .fin 0, .fin 0, 100⟩] }

/-- A reading one tick later: `/proc` lists PIDs 200, 100, 300 in that order, which have
used 10, 10 and 50 ticks more. -/
def tieSnapshot : Snapshot :=
  { cpu := ⟨201, 0, 0, 800, 0, 0, 0, 0⟩
    mem := [("MemTotal:", 8000000), ("MemFree:", 2000000), ("Buffers:", 500000),
      ("Cached:", 1500000)]
    proc := some [⟨200, some ⟨"a", 110, 0, 10⟩⟩, ⟨100, some ⟨"b", 110, 0, 10⟩⟩,
      ⟨300, some ⟨"c", 150, 0, 10⟩⟩] }

theorem log2Fuel_spec : ∀ (fuel n : Nat), n ≤ fuel → 0 < n →
    2 ^ log2Fuel fuel n ≤ n ∧ n < 2 ^ (log2Fuel fuel n + 1)
  | 0, n, h, hn => by omega
  | fuel + 1, n, h, hn => by
    unfold log2Fuel
    split
    · constructor <;> simp <;> omega
    · have ih := log2Fuel_spec fuel (n / 2) (by omega) (by omega)
      obtain ⟨h1, h2⟩ := ih
      rw [pow_succ] at h2
      rw [pow_succ, pow_succ, pow_succ]
      constructor <;> omega

theorem natLog2_spec (n : Nat) (hn : 0 < n) :
    2 ^ natLog2 n ≤ n ∧ n < 2 ^ (natLog2 n + 1) :=
  log2Fuel_spec n n le_rfl hn

theorem ilog2_spec (x : ℚ) (hx : 0 < x) :
    (2 : ℚ) ^ ilog2 x ≤ x ∧ x < (2 : ℚ) ^ (ilog2 x + 1) := by
  have hnum : 0 < x.num := Rat.num_pos.mpr hx
  have hp0 : 0 < x.num.toNat := by omega
  have hd0 : 0 < x.den := x.den_pos
  have hxe : (x.num.toNat : ℚ) / (x.den : ℚ) = x := by
    have h1 : (x.num.toNat : ℚ) = (x.num : ℚ) := by
      exact_mod_cast congrArg (Int.cast : ℤ → ℚ) (Int.toNat_of_nonneg hnum.le)
    rw [h1]
    exact Rat.num_div_den x
  obtain ⟨hp1, hp2⟩ := natLog2_spec _ hp0
  obtain ⟨hd1, hd2⟩ := natLog2_spec _ hd0
  have hdq : (0 : ℚ) < (x.den : ℚ) := by exact_mod_cast hd0
  have hp1q : (2 : ℚ) ^ natLog2 x.num.toNat ≤ (x.num.toNat : ℚ) := by exact_mod_cast hp1
  have hp2q : (x.num.toNat : ℚ) < (2 : ℚ) ^ (natLog2 x.num.toNat + 1) := by exact_mod_cast hp2
  have hd1q : (2 : ℚ) ^ natLog2 x.den ≤ (x.den : ℚ) := by exact_mod_cast hd1
  have hd2q : (x.den : ℚ) < (2 : ℚ) ^ (natLog2 x.den + 1) := by exact_mod_cast hd2
  have hxlt : x < (2 : ℚ) ^ ((natLog2 x.num.toNat : ℤ) - (natLog2 x.den : ℤ) + 1) := by
    have e : (2 : ℚ) ^ ((natLog2 x.num.toNat : ℤ) - (natLog2 x.den : ℤ) + 1)
        = (2 : ℚ) ^ (natLog2 x.num.toNat + 1) / (2 : ℚ) ^ natLog2 x.den := by
      rw [show ((natLog2 x.num.toNat : ℤ) - (natLog2 x.den : ℤ) + 1)
        = ((natLog2 x.num.toNat + 1 : ℕ) : ℤ) - ((natLog2 x.den : ℕ) : ℤ) by push_cast; ring,
        zpow_sub₀ (by norm_num), zpow_natCast, zpow_natCast]
    rw [e]
    refine lt_of_eq_of_lt hxe.symm ?_
    rw [div_lt_div_iff₀ hdq (by positivity)]
    calc (x.num.toNat : ℚ) * (2 : ℚ) ^ natLog2 x.den
        ≤ (x.num.toNat : ℚ) * (x.den : ℚ) := by
          apply mul_le_mul_of_nonneg_left hd1q (by positivity)
      _ < (2 : ℚ) ^ (natLog2 x.num.toNat + 1) * (x.den : ℚ) := by
          apply mul_lt_mul_of_pos_right hp2q hdq
  have hxge : (2 : ℚ) ^ ((natLog2 x.num.toNat : ℤ) - (natLog2 x.den : ℤ) - 1) ≤ x := by
    have e : (2 : ℚ) ^ ((natLog2 x.num.toNat : ℤ) - (natLog2 x.den : ℤ) - 1)
        = (2 : ℚ) ^ natLog2 x.num.toNat / (2 : ℚ) ^ (natLog2 x.den + 1) := by
      rw [show ((natLog2 x.num.toNat : ℤ) - (natLog2 x.den : ℤ) - 1)
        = ((natLog2 x.num.toNat : ℕ) : ℤ) - ((natLog2 x.den + 1 : ℕ) : ℤ) by push_cast; ring,
        zpow_sub₀ (by norm_num), zpow_natCast, zpow_natCast]
    rw [e]
    refine le_of_le_of_eq ?_ hxe
    rw [div_le_div_iff₀ (by positivity) hdq]
    calc (2 : ℚ) ^ natLog2 x.num.toNat * (x.den : ℚ)
        ≤ (x.num.toNat : ℚ) * (x.den : ℚ) := by
          apply mul_le_mul_of_nonneg_right hp1q hdq.le
      _ ≤ (x.num.toNat : ℚ) * (2 : ℚ) ^ (natLog2 x.den + 1) := by
          apply mul_le_mul_of_nonneg_left hd2q.le (by positivity)
  unfold ilog2
  simp only []
  split
  · rename_i h
    exact ⟨h, hxlt⟩
  · rename_i h
    refine ⟨hxge, ?_⟩
    rw [sub_add_cancel]
    exact lt_of_not_le h

theorem roundHalfEven_floor_le (x : ℚ) : ⌊x⌋ ≤ roundHalfEven x := by
  unfold roundHalfEven
  simp only []
  split_ifs <;> omega

theorem roundHalfEven_le_floor_succ (x : ℚ) : roundHalfEven x ≤ ⌊x⌋ + 1 := by
  unfold roundHalfEven
  simp only []
  split_ifs <;> omega

theorem roundHalfEven_intCast (n : ℤ) : roundHalfEven (n : ℚ) = n := by
  unfold roundHalfEven
  simp

theorem roundHalfEven_mono {x y : ℚ} (h : x ≤ y) : roundHalfEven x ≤ roundHalfEven y := by
  have hf : ⌊x⌋ ≤ ⌊y⌋ := Int.floor_le_floor h
  rcases lt_or_eq_of_le hf with hlt | heq
  · calc roundHalfEven x ≤ ⌊x⌋ + 1 := roundHalfEven_le_floor_succ x
      _ ≤ ⌊y⌋ := hlt
      _ ≤ roundHalfEven y := roundHalfEven_floor_le y
  · unfold roundHalfEven
    simp only []
    rw [heq]
    have hr : x - (⌊y⌋ : ℚ) ≤ y - (⌊y⌋ : ℚ) := by linarith
    split_ifs <;> first | omega | (exfalso; linarith)

theorem roundHalfEven_le_of_le {x : ℚ} {n : ℤ} (h : x ≤ (n : ℚ)) : roundHalfEven x ≤ n := by
  have := roundHalfEven_mono h
  rwa [roundHalfEven_intCast] at this

theorem le_roundHalfEven_of_le {x : ℚ} {n : ℤ} (h : (n : ℚ) ≤ x) : n ≤ roundHalfEven x := by
  have := roundHalfEven_mono h
  rwa [roundHalfEven_intCast] at this

theorem two_zpow_pos (k : ℤ) : (0 : ℚ) < (2 : ℚ) ^ k := zpow_pos (by norm_num) k

theorem ilog2_mono {a b : ℚ} (ha : 0 < a) (h : a ≤ b) : ilog2 a ≤ ilog2 b := by
  obtain ⟨h1, _⟩ := ilog2_spec a ha
  obtain ⟨_, h2⟩ := ilog2_spec b (lt_of_lt_of_le ha h)
  have h3 : (2 : ℚ) ^ ilog2 a < (2 : ℚ) ^ (ilog2 b + 1) := by linarith
  have h4 := (zpow_lt_zpow_iff_right₀ (by norm_num : (1 : ℚ) < 2)).mp h3
  omega

theorem roundMag_zero : roundMag 0 = 0 := by
  unfold roundMag
  simp [roundHalfEven]

theorem roundMag_nonneg {a : ℚ} (ha : 0 ≤ a) : 0 ≤ roundMag a := by
  unfold roundMag
  have hp := two_zpow_pos (ulpExp a)
  have h0 : (0 : ℤ) ≤ roundHalfEven (a / (2 : ℚ) ^ ulpExp a) := by
    apply le_roundHalfEven_of_le
    have : 0 ≤ a / (2 : ℚ) ^ ulpExp a := div_nonneg ha hp.le
    simpa using this
  have h1 : (0 : ℚ) ≤ (roundHalfEven (a / (2 : ℚ) ^ ulpExp a) : ℚ) := by exact_mod_cast h0
  exact mul_nonneg h1 hp.le

theorem roundMag_le_pow {a : ℚ} (ha : 0 < a) : roundMag a ≤ (2 : ℚ) ^ (ulpExp a + 24) := by
  unfold roundMag
  have hp := two_zpow_pos (ulpExp a)
  obtain ⟨_, h2⟩ := ilog2_spec a ha
  have hle : ilog2 a + 1 ≤ ulpExp a + 24 := by unfold ulpExp; omega
  have h3 : a ≤ (2 : ℚ) ^ (ulpExp a + 24) :=
    le_trans h2.le (zpow_le_zpow_right₀ (by norm_num) hle)
  have h4 : a / (2 : ℚ) ^ ulpExp a ≤ (((2 : ℤ) ^ (24 : ℕ) : ℤ) : ℚ) := by
    rw [div_le_iff₀ hp]
    rw [zpow_add₀ (by norm_num : (2 : ℚ) ≠ 0)] at h3
    calc a ≤ (2 : ℚ) ^ ulpExp a * (2 : ℚ) ^ (24 : ℤ) := h3
      _ = (((2 : ℤ) ^ (24 : ℕ) : ℤ) : ℚ) * (2 : ℚ) ^ ulpExp a := by
        push_cast
        rw [mul_comm]
        norm_num
  have h5 := roundHalfEven_le_of_le h4
  have h6 : (roundHalfEven (a / (2 : ℚ) ^ ulpExp a) : ℚ) ≤ (((2 : ℤ) ^ (24 : ℕ) : ℤ) : ℚ) := by
    exact_mod_cast h5
  calc (roundHalfEven (a / (2 : ℚ) ^ ulpExp a) : ℚ) * (2 : ℚ) ^ ulpExp a
      ≤ (((2 : ℤ) ^ (24 : ℕ) : ℤ) : ℚ) * (2 : ℚ) ^ ulpExp a :=
        mul_le_mul_of_nonneg_right h6 hp.le
    _ = (2 : ℚ) ^ (ulpExp a + 24) := by
        rw [zpow_add₀ (by norm_num : (2 : ℚ) ≠ 0)]
        push_cast
        rw [mul_comm]
        norm_num

theorem pow_le_roundMag {b : ℚ} (hb : 0 < b) (hn : -126 ≤ ilog2 b) :
    (2 : ℚ) ^ (ulpExp b + 23) ≤ roundMag b := by
  unfold roundMag
  have hp := two_zpow_pos (ulpExp b)
  obtain ⟨h1, _⟩ := ilog2_spec b hb
  have he : ulpExp b + 23 = ilog2 b := by unfold ulpExp; omega
  have h3 : (2 : ℚ) ^ (ulpExp b + 23) ≤ b := by rw [he]; exact h1
  have h4 : (((2 : ℤ) ^ (23 : ℕ) : ℤ) : ℚ) ≤ b / (2 : ℚ) ^ ulpExp b := by
    rw [le_div_iff₀ hp]
    rw [zpow_add₀ (by norm_num : (2 : ℚ) ≠ 0)] at h3
    calc (((2 : ℤ) ^ (23 : ℕ) : ℤ) : ℚ) * (2 : ℚ) ^ ulpExp b
        = (2 : ℚ) ^ ulpExp b * (2 : ℚ) ^ (23 : ℤ) := by
          push_cast
          rw [mul_comm]
          norm_num
      _ ≤ b := h3
  have h5 := le_roundHalfEven_of_le h4
  have h6 : (((2 : ℤ) ^ (23 : ℕ) : ℤ) : ℚ) ≤ (roundHalfEven (b / (2 : ℚ) ^ ulpExp b) : ℚ) := by
    exact_mod_cast h5
  calc (2 : ℚ) ^ (ulpExp b + 23)
      = (((2 : ℤ) ^ (23 : ℕ) : ℤ) : ℚ) * (2 : ℚ) ^ ulpExp b := by
        rw [zpow_add₀ (by norm_num : (2 : ℚ) ≠ 0)]
        push_cast
        rw [mul_comm]
        norm_num
    _ ≤ (roundHalfEven (b / (2 : ℚ) ^ ulpExp b) : ℚ) * (2 : ℚ) ^ ulpExp b :=
        mul_le_mul_of_nonneg_right h6 hp.le

theorem roundMag_mono_pos {a b : ℚ} (ha : 0 < a) (h : a ≤ b) : roundMag a ≤ roundMag b := by
  have hb : 0 < b := lt_of_lt_of_le ha h
  have hlog := ilog2_mono ha h
  have hu : ulpExp a ≤ ulpExp b := by unfold ulpExp; omega
  rcases eq_or_lt_of_le hu with heq | hlt
  · unfold roundMag
    rw [heq]
    have hp := two_zpow_pos (ulpExp b)
    have h1 : a / (2 : ℚ) ^ ulpExp b ≤ b / (2 : ℚ) ^ ulpExp b :=
      div_le_div_of_nonneg_right h hp.le
    have h2 := roundHalfEven_mono h1
    have h3 : (roundHalfEven (a / (2 : ℚ) ^ ulpExp b) : ℚ)
        ≤ (roundHalfEven (b / (2 : ℚ) ^ ulpExp b) : ℚ) := by exact_mod_cast h2
    exact mul_le_mul_of_nonneg_right h3 hp.le
  · have hn : -126 ≤ ilog2 b := by unfold ulpExp at hlt; omega
    calc roundMag a ≤ (2 : ℚ) ^ (ulpExp a + 24) := roundMag_le_pow ha
      _ ≤ (2 : ℚ) ^ (ulpExp b + 23) := zpow_le_zpow_right₀ (by norm_num) (by omega)
      _ ≤ roundMag b := pow_le_roundMag hb hn

theorem roundMag_mono {a b : ℚ} (ha : 0 ≤ a) (h : a ≤ b) : roundMag a ≤ roundMag b := by
  rcases eq_or_lt_of_le ha with h0 | hpos
  · rw [← h0, roundMag_zero]
    exact roundMag_nonneg (le_trans ha h)
  · exact roundMag_mono_pos hpos h

theorem roundQ_mono {x y : ℚ} (h : x ≤ y) : roundQ x ≤ roundQ y := by
  unfold roundQ
  split_ifs with hx hy hy
  · exact neg_le_neg (roundMag_mono (by linarith) (by linarith))
  · have h1 := roundMag_nonneg (a := -x) (by linarith)
    have h2 := roundMag_nonneg (a := y) (by linarith)
    linarith
  · exfalso; linarith
  · exact roundMag_mono (by linarith) h

theorem roundQ_nonneg {x : ℚ} (h : 0 ≤ x) : 0 ≤ roundQ x := by
  unfold roundQ
  rw [if_neg (by linarith)]
  exact roundMag_nonneg h

theorem roundQ_neg (x : ℚ) : roundQ (-x) = -roundQ x := by
  unfold roundQ
  rcases lt_trichotomy x 0 with h | h | h
  · rw [if_neg (by linarith), if_pos h]; simp
  · subst h; simp [roundMag_zero]
  · rw [if_pos (by linarith), if_neg (by linarith)]; simp

theorem div_fin_fin (a b : ℚ) : F32.div (.fin a) (.fin b)
    = if b = 0 then (if a = 0 then .nan else .inf (decide (a < 0))) else F32.round (a / b) := rfl

theorem mul_fin_fin (a b : ℚ) : F32.mul (.fin a) (.fin b) = F32.round (a * b) := rfl

theorem mul_inf_fin (s : Bool) (b : ℚ) : F32.mul (.inf s) (.fin b)
    = if b = 0 then .nan else .inf (xor s (decide (b < 0))) := rfl

theorem round_eq_fin {x : ℚ} (h : |roundQ x| < (2 : ℚ) ^ (128 : ℕ)) :
    F32.round x = .fin (roundQ x) := by
  unfold F32.round
  rw [if_neg (not_le.mpr h)]

theorem roundQ_zero : roundQ 0 = 0 := by decide!

theorem roundQ_one : roundQ 1 = 1 := by decide!

theorem roundQ_hundred : roundQ 100 = 100 := by decide!

theorem roundQ_two_pow_64 : roundQ 18446744073709551616 = 18446744073709551616 := by decide!

theorem roundQ_hundred_two_pow_64 :
    roundQ 1844674407370955161600 = 1844674407370955161600 := by decide!

theorem roundQ_inv_two_pow_64 :
    roundQ (1 / 18446744073709551616) = 1 / 18446744073709551616 := by decide!

theorem roundQ_hundred_div_two_pow_64 :
    roundQ (100 / 18446744073709551616) = 100 / 18446744073709551616 := by decide!

theorem roundQ_le_of_le {x c : ℚ} (hc : roundQ c = c) (h : x ≤ c) : roundQ x ≤ c := by
  have := roundQ_mono h
  rwa [hc] at this

theorem le_roundQ_of_le {x c : ℚ} (hc : roundQ c = c) (h : c ≤ x) : c ≤ roundQ x := by
  have := roundQ_mono h
  rwa [hc] at this

theorem round_of_bounds {x c : ℚ} (hc : roundQ c = c) (hc2 : c < (2 : ℚ) ^ (128 : ℕ))
    (h1 : -c ≤ x) (h2 : x ≤ c) :
    F32.round x = .fin (roundQ x) ∧ -c ≤ roundQ x ∧ roundQ x ≤ c := by
  have hu := roundQ_le_of_le hc h2
  have hl : -c ≤ roundQ x := by
    have hnc : roundQ (-c) = -c := by rw [roundQ_neg, hc]
    exact le_roundQ_of_le hnc h1
  refine ⟨round_eq_fin ?_, hl, hu⟩
  rw [abs_lt]
  constructor <;> linarith

theorem ofNat_eq (n : Nat) (hn : n < U64) :
    F32.ofNat n = .fin (roundQ n) ∧ 0 ≤ roundQ (n : ℚ) ∧ roundQ (n : ℚ) ≤ 18446744073709551616 := by
  have h0 : (0 : ℚ) ≤ (n : ℚ) := Nat.cast_nonneg n
  have h1 : (n : ℚ) ≤ 18446744073709551616 := by
    have : n ≤ 18446744073709551616 := by unfold U64 at hn; omega
    exact_mod_cast this
  obtain ⟨e, _, hu⟩ := round_of_bounds roundQ_two_pow_64 (by norm_num) (by linarith) h1
  exact ⟨e, roundQ_nonneg h0, hu⟩

theorem one_le_roundQ_natCast (n : Nat) (hn : 0 < n) : 1 ≤ roundQ (n : ℚ) := by
  apply le_roundQ_of_le roundQ_one
  exact_mod_cast hn

/-- The float expression `(float)n / d * 100.0f` for a nonzero divisor: it is finite, it is
the correctly rounded formula, and it is bounded by what the operands allow. -/
theorem pct_core (n d : Nat) (hn : n < U64) (hd : d < U64) (hd0 : 0 < d) :
    pctF32 n d = .fin (pctQ n d) ∧ 0 ≤ pctQ n d ∧ pctQ n d ≤ 1844674407370955161600
      ∧ (n ≤ d → pctQ n d ≤ 100) ∧ (0 < n → 0 < pctQ n d) := by
  obtain ⟨ea, ha0, ha1⟩ := ofNat_eq n hn
  obtain ⟨eb, _, hb1⟩ := ofNat_eq d hd
  have hb0 : 1 ≤ roundQ (d : ℚ) := one_le_roundQ_natCast d hd0
  have hbpos : 0 < roundQ (d : ℚ) := by linarith
  have hq0 : 0 ≤ roundQ (n : ℚ) / roundQ (d : ℚ) := div_nonneg ha0 hbpos.le
  have hq1 : roundQ (n : ℚ) / roundQ (d : ℚ) ≤ 18446744073709551616 :=
    le_trans (div_le_self ha0 hb0) ha1
  obtain ⟨eq, _, hqu⟩ := round_of_bounds roundQ_two_pow_64 (by norm_num) (by linarith) hq1
  have hql := roundQ_nonneg hq0
  have hm0 : 0 ≤ roundQ (roundQ (n : ℚ) / roundQ (d : ℚ)) * 100 := by positivity
  have hm1 : roundQ (roundQ (n : ℚ) / roundQ (d : ℚ)) * 100 ≤ 1844674407370955161600 := by
    linarith
  obtain ⟨em, _, hmu⟩ :=
    round_of_bounds roundQ_hundred_two_pow_64 (by norm_num) (by linarith) hm1
  have hml := roundQ_nonneg hm0
  have hdiv : F32.div (.fin (roundQ (n : ℚ))) (.fin (roundQ (d : ℚ)))
      = F32.round (roundQ (n : ℚ) / roundQ (d : ℚ)) := by
    rw [div_fin_fin, if_neg (ne_of_gt hbpos)]
  refine ⟨?_, hml, hmu, ?_, ?_⟩
  · unfold pctF32 pctQ
    rw [ea, eb, hdiv, eq, mul_fin_fin]
    exact em
  · intro hnd
    unfold pctQ
    have hab : roundQ (n : ℚ) ≤ roundQ (d : ℚ) := roundQ_mono (by exact_mod_cast hnd)
    have h1 : roundQ (n : ℚ) / roundQ (d : ℚ) ≤ 1 := (div_le_one hbpos).mpr hab
    have h2 := roundQ_le_of_le roundQ_one h1
    exact roundQ_le_of_le roundQ_hundred (by linarith)
  · intro hn0
    unfold pctQ
    have ha : 1 ≤ roundQ (n : ℚ) := one_le_roundQ_natCast n hn0
    have h1 : (1 : ℚ) / 18446744073709551616 ≤ roundQ (n : ℚ) / roundQ (d : ℚ) := by
      rw [div_le_div_iff₀ (by norm_num) hbpos]
      linarith
    have h2 := le_roundQ_of_le roundQ_inv_two_pow_64 h1
    have h3 : (100 : ℚ) / 18446744073709551616
        ≤ roundQ (roundQ (n : ℚ) / roundQ (d : ℚ)) * 100 := by linarith
    have h4 := le_roundQ_of_le roundQ_hundred_div_two_pow_64 h3
    have : (0 : ℚ) < 100 / 18446744073709551616 := by norm_num
    linarith

/-- Division by a zero divisor: a positive dividend gives `+inf`, which the multiplication
by `100.0f` keeps. -/
theorem pct_zero_den (n : Nat) (hn : n < U64) (hn0 : 0 < n) : pctF32 n 0 = .inf false := by
  obtain ⟨ea, _, _⟩ := ofNat_eq n hn
  have ha : 1 ≤ roundQ (n : ℚ) := one_le_roundQ_natCast n hn0
  have e0 : F32.ofNat 0 = .fin 0 := by decide!
  unfold pctF32
  rw [ea, e0]
  rw [div_fin_fin, if_pos rfl, if_neg (by linarith), decide_eq_false (by linarith),
    mul_inf_fin, if_neg (by norm_num)]
  simp

theorem pct_zero_zero : pctF32 0 0 = .nan := by decide!

/-! ## Machine integer lemmas -/

theorem sub64_of_le {a b : Nat} (ha : a < U64) (h : b ≤ a) : sub64 a b = a - b := by
  unfold sub64 U64 at *
  omega

theorem sub64_of_lt {a b : Nat} (hb : b < U64) (h : a < b) : sub64 a b = a + U64 - b := by
  unfold sub64 U64 at *
  omega

theorem sub64_lt (a b : Nat) : sub64 a b < U64 := by
  unfold sub64
  exact Nat.mod_lt _ (by unfold U64; omega)

theorem add64_lt (a b : Nat) : add64 a b < U64 := by
  unfold add64
  exact Nat.mod_lt _ (by unfold U64; omega)

theorem mul64_lt (a b : Nat) : mul64 a b < U64 := by
  unfold mul64
  exact Nat.mod_lt _ (by unfold U64; omega)

theorem readCPUStat_inRange (l : CpuStatLine) : (readCPUStat l).inRange :=
  ⟨add64_lt _ _, add64_lt _ _⟩

theorem pctQ_zero_num (d : ℚ) : pctQ 0 d = 0 := by
  unfold pctQ
  rw [roundQ_zero, zero_div, roundQ_zero, zero_mul, roundQ_zero]

theorem inPercentRange_fin {q : ℚ} (h0 : 0 ≤ q) (h1 : q ≤ 100) :
    (F32.fin q).inPercentRange := by
  unfold F32.inPercentRange F32.le
  simp [h0, h1]

theorem getCPUUsagePercent_eq (prev curr : CPUData)
    (h : sub64 curr.total prev.total ≠ 0) :
    getCPUUsagePercent prev curr
      = pctF32 (sub64 (sub64 curr.total prev.total) (sub64 curr.idle prev.idle))
          (sub64 curr.total prev.total) := by
  unfold getCPUUsagePercent getCPUUsagePercentWith pctF32
  simp only []
  rw [if_neg h]

/-! ## System CPU percentage -/

/-- C1 (as amended): for two snapshots with `prev.total < curr.total`, an idle counter that
did not go back and an idle difference not larger than the total difference,
`getCPUUsagePercent` returns the binary32 value of `(diffTotal - diffIdle) / diffTotal * 100`
on the true differences, and that value lies in `[0, 100]`. -/
theorem C1_cpu_percent (prev curr : CPUData) (hc : curr.inRange)
    (ht : prev.total < curr.total) (hi : prev.idle ≤ curr.idle)
    (hle : curr.idle - prev.idle ≤ curr.total - prev.total) :
    getCPUUsagePercent prev curr
        = .fin (pctQ (((curr.total : ℚ) - (prev.total : ℚ)) - ((curr.idle : ℚ) - (prev.idle : ℚ)))
            ((curr.total : ℚ) - (prev.total : ℚ)))
      ∧ (getCPUUsagePercent prev curr).inPercentRange := by
  have hdT : sub64 curr.total prev.total = curr.total - prev.total :=
    sub64_of_le hc.1 ht.le
  have hdI : sub64 curr.idle prev.idle = curr.idle - prev.idle := sub64_of_le hc.2 hi
  have hT0 : 0 < curr.total - prev.total := by omega
  have hTlt : curr.total - prev.total < U64 := by have := hc.1; omega
  have hnum : sub64 (curr.total - prev.total) (curr.idle - prev.idle)
      = (curr.total - prev.total) - (curr.idle - prev.idle) := sub64_of_le hTlt hle
  have hnlt : (curr.total - prev.total) - (curr.idle - prev.idle) < U64 := by omega
  rw [getCPUUsagePercent_eq prev curr (by rw [hdT]; omega), hdT, hdI, hnum]
  obtain ⟨e, h0, _, h100, _⟩ := pct_core _ _ hnlt hTlt hT0
  have hcast1 : ((curr.total - prev.total : ℕ) : ℚ) = (curr.total : ℚ) - (prev.total : ℚ) :=
    Nat.cast_sub ht.le
  have hcast2 : (((curr.total - prev.total) - (curr.idle - prev.idle) : ℕ) : ℚ)
      = ((curr.total : ℚ) - (prev.total : ℚ)) - ((curr.idle : ℚ) - (prev.idle : ℚ)) := by
    rw [Nat.cast_sub hle, Nat.cast_sub ht.le, Nat.cast_sub hi]
  rw [e]
  refine ⟨by rw [hcast1, hcast2], inPercentRange_fin h0 (h100 (by omega))⟩

/-- C1, witness: the snapshots `{1000, 800}` and `{1200, 850}` give `75.0`. -/
theorem C1_cpu_percent_witness :
    (getCPUUsagePercent ⟨1000, 800⟩ ⟨1200, 850⟩
        = .fin (pctQ ((((1200 : ℕ) : ℚ) - ((1000 : ℕ) : ℚ)) - (((850 : ℕ) : ℚ) - ((800 : ℕ) : ℚ)))
            (((1200 : ℕ) : ℚ) - ((1000 : ℕ) : ℚ)))
      ∧ (getCPUUsagePercent ⟨1000, 800⟩ ⟨1200, 850⟩).inPercentRange)
    ∧ getCPUUsagePercent ⟨1000, 800⟩ ⟨1200, 850⟩ = .fin 75 :=
  ⟨C1_cpu_percent ⟨1000, 800⟩ ⟨1200, 850⟩ ⟨by decide, by decide⟩
    (by decide) (by decide) (by decide), by decide!⟩

/-- C1, counterexample: with `curr.total > prev.total` the result leaves `[0, 100]` when the
idle counter goes back (`iowait` drops from 100 to 90 while `user` grows: `{1000, 800}` to
`{1200, 790}` gives `104.99999`), and when the idle difference exceeds the total difference
(`{1000, 800}` to `{1200, 1100}`: the unsigned `diffTotal - diffIdle` wraps and the result
is `2^63`, where the formula gives `-50`). -/
theorem C1_counterexample :
    (readCPUStat ⟨150, 0, 50, 700, 100, 0, 0, 0⟩ = ⟨1000, 800⟩
      ∧ readCPUStat ⟨360, 0, 50, 700, 90, 0, 0, 0⟩ = ⟨1200, 790⟩
      ∧ (1000 : Nat) ≤ 1200 ∧ 0 < sub64 1200 1000
      ∧ getCPUUsagePercent ⟨1000, 800⟩ ⟨1200, 790⟩ = .fin (13762559 / 131072)
      ∧ ¬ (getCPUUsagePercent ⟨1000, 800⟩ ⟨1200, 790⟩).inPercentRange)
    ∧ (getCPUUsagePercent ⟨1000, 800⟩ ⟨1200, 1100⟩ = .fin 9223372036854775808
      ∧ getCPUUsagePercent ⟨1000, 800⟩ ⟨1200, 1100⟩ ≠ .fin (pctQ (200 - 300) 200)
      ∧ ¬ (getCPUUsagePercent ⟨1000, 800⟩ ⟨1200, 1100⟩).inPercentRange) := by
  unfold F32.inPercentRange
  decide!

/-- C2 (as amended): when the current total is smaller than the previous total, the
unsigned difference is `curr.total + 2^64 - prev.total`, which is not zero, so the guard
does not fire: `getCPUUsagePercent` returns the finite, non-negative binary32 value of
`((diffTotal - diffIdle) mod 2^64) / diffTotal * 100` on the wrapped differences, and that
value is `0.0` exactly when the wrapped numerator is zero. -/
theorem C2_counter_reset (prev curr : CPUData) (hp : prev.inRange)
    (hlt : curr.total < prev.total) :
    sub64 curr.total prev.total = curr.total + U64 - prev.total
      ∧ sub64 curr.total prev.total ≠ 0
      ∧ getCPUUsagePercent prev curr
          = .fin (pctQ ((sub64 (sub64 curr.total prev.total) (sub64 curr.idle prev.idle) : ℕ) : ℚ)
              ((sub64 curr.total prev.total : ℕ) : ℚ))
      ∧ F32.le (.fin 0) (getCPUUsagePercent prev curr) = true
      ∧ (getCPUUsagePercent prev curr = .fin 0
          ↔ sub64 (sub64 curr.total prev.total) (sub64 curr.idle prev.idle) = 0) := by
  have hdT : sub64 curr.total prev.total = curr.total + U64 - prev.total :=
    sub64_of_lt hp.1 hlt
  have hne : sub64 curr.total prev.total ≠ 0 := by
    rw [hdT]
    have := hp.1
    omega
  have hpos : 0 < sub64 curr.total prev.total := Nat.pos_of_ne_zero hne
  obtain ⟨e, h0, _, _, hp0⟩ := pct_core
    (sub64 (sub64 curr.total prev.total) (sub64 curr.idle prev.idle))
    (sub64 curr.total prev.total) (sub64_lt _ _) (sub64_lt _ _) hpos
  rw [getCPUUsagePercent_eq prev curr hne, e]
  refine ⟨hdT, hne, rfl, ?_, ?_⟩
  · unfold F32.le
    simp [h0]
  · constructor
    · intro h
      by_contra hnz
      have := hp0 (Nat.pos_of_ne_zero hnz)
      rw [F32.fin.injEq] at h
      linarith
    · intro h
      rw [h, Nat.cast_zero, pctQ_zero_num]

/-- C2, witness: the snapshots `{1200, 850}` then `{1000, 800}`. -/
theorem C2_counter_reset_witness :
    sub64 1000 1200 = 1000 + U64 - 1200
      ∧ sub64 1000 1200 ≠ 0
      ∧ getCPUUsagePercent ⟨1200, 850⟩ ⟨1000, 800⟩
          = .fin (pctQ ((sub64 (sub64 1000 1200) (sub64 800 850) : ℕ) : ℚ)
              ((sub64 1000 1200 : ℕ) : ℚ))
      ∧ F32.le (.fin 0) (getCPUUsagePercent ⟨1200, 850⟩ ⟨1000, 800⟩) = true
      ∧ (getCPUUsagePercent ⟨1200, 850⟩ ⟨1000, 800⟩ = .fin 0
          ↔ sub64 (sub64 1000 1200) (sub64 800 850) = 0) :=
  C2_counter_reset ⟨1200, 850⟩ ⟨1000, 800⟩ ⟨by decide, by decide⟩ (by decide)

/-- C2, counterexample: after a counter reset from `{1200, 850}` to `{1000, 800}` the
current total is the smaller one and the function returns `100.0`, not `0.0`. -/
theorem C2_counterexample :
    (1000 : Nat) < 1200
      ∧ getCPUUsagePercent ⟨1200, 850⟩ ⟨1000, 800⟩ = .fin 100
      ∧ getCPUUsagePercent ⟨1200, 850⟩ ⟨1000, 800⟩ ≠ .fin 0 := by
  decide!

/-- C8: when the unsigned difference of the totals is zero, `getCPUUsagePercent` returns
exactly `0.0`, and it does so whatever the division operator is: the guard returns before
the division. -/
theorem C8_zero_diff (fdiv : F32 → F32 → F32) (prev curr : CPUData)
    (h : sub64 curr.total prev.total = 0) :
    getCPUUsagePercentWith fdiv prev curr = .fin 0
      ∧ getCPUUsagePercent prev curr = .fin 0 := by
  unfold getCPUUsagePercent getCPUUsagePercentWith
  simp only []
  rw [if_pos h, if_pos h]
  exact ⟨rfl, rfl⟩

/-- C8, witness: two snapshots with the same total, under a division that yields NaN. -/
theorem C8_zero_diff_witness :
    getCPUUsagePercentWith (fun _ _ => F32.nan) ⟨1000, 800⟩ ⟨1000, 850⟩ = .fin 0
      ∧ getCPUUsagePercent ⟨1000, 800⟩ ⟨1000, 850⟩ = .fin 0 :=
  C8_zero_diff (fun _ _ => F32.nan) ⟨1000, 800⟩ ⟨1000, 850⟩ (by decide)

/-! ## Process table lemmas -/

theorem prevCpuUsage_none (pid : Int) (tt td : Nat) (tps : Int) :
    ∀ prev : List ProcessInfo, (∀ p ∈ prev, p.pid ≠ pid) →
      prevCpuUsage pid tt td tps prev = .fin 0
  | [], _ => rfl
  | p :: rest, h => by
    unfold prevCpuUsage
    rw [if_neg (h p (List.mem_cons_self _ _))]
    exact prevCpuUsage_none pid tt td tps rest
      (fun q hq => h q (List.mem_cons_of_mem _ hq))

theorem prevCpuUsage_some (pid : Int) (tt td : Nat) (tps : Int) (p : ProcessInfo) :
    ∀ prev : List ProcessInfo, matchedPrev prev pid = some p →
      prevCpuUsage pid tt td tps prev
        = pctF32 (sub64 tt p.lastCpuTime) (mul64 td (longToU64 tps))
  | [], h => by simp [matchedPrev] at h
  | q :: rest, h => by
    unfold prevCpuUsage
    unfold matchedPrev at h
    rw [List.find?_cons] at h
    by_cases hq : q.pid = pid
    · rw [if_pos hq]
      simp only [hq, decide_True] at h
      rw [Option.some.injEq] at h
      rw [h]
    · rw [if_neg hq]
      simp only [hq, decide_False] at h
      exact prevCpuUsage_some pid tt td tps p rest h

theorem mem_getProcessesLoop (psz : Int) (prev : List ProcessInfo) (td : Nat) (tps : Int)
    (r : ProcessInfo) :
    ∀ entries : List ProcEntry, r ∈ getProcessesLoop psz prev td tps entries →
      ∃ e s, e ∈ entries ∧ e.stat = some s ∧ r = procRow psz prev td tps e.pid s
  | [], h => by simp [getProcessesLoop] at h
  | e :: rest, h => by
    unfold getProcessesLoop at h
    split at h
    · obtain ⟨e', s, he, hs, hr⟩ := mem_getProcessesLoop psz prev td tps r rest h
      exact ⟨e', s, List.mem_cons_of_mem _ he, hs, hr⟩
    · rename_i s hs
      rcases List.mem_cons.mp h with h1 | h2
      · exact ⟨e, s, List.mem_cons_self _ _, hs, h1⟩
      · obtain ⟨e', s', he, hs', hr⟩ := mem_getProcessesLoop psz prev td tps r rest h2
        exact ⟨e', s', List.mem_cons_of_mem _ he, hs', hr⟩

/-- Every row of `getProcesses` carries a listed PID, a cumulative tick count below `2^64`
and the CPU usage the scan of the previous table yields for that PID and tick count. -/
theorem row_of_getProcesses {psz : Int} {proc : Option (List ProcEntry)}
    {prev : List ProcessInfo} {td : Nat} {tps : Int} {r : ProcessInfo}
    (h : r ∈ getProcesses psz proc prev td tps) :
    r.pid ∈ listedPids proc ∧ r.lastCpuTime < U64
      ∧ r.cpuUsage = prevCpuUsage r.pid r.lastCpuTime td tps prev := by
  unfold getProcesses at h
  cases proc with
  | none => simp at h
  | some entries =>
    obtain ⟨e, s, he, _, hr⟩ := mem_getProcessesLoop psz prev td tps r entries h
    subst hr
    refine ⟨?_, add64_lt _ _, rfl⟩
    unfold listedPids procRow
    exact List.mem_map.mpr ⟨e, he, rfl⟩

theorem lt_zero_fin_pct (n d : Nat) (hn : n < U64) (hd : d < U64) (hn0 : 0 < n) :
    F32.lt (.fin 0) (pctF32 n d) = true := by
  rcases Nat.eq_zero_or_pos d with h0 | hpos
  · subst h0
    rw [pct_zero_den n hn hn0]
    rfl
  · obtain ⟨e, _, _, _, hp⟩ := pct_core n d hn hd hpos
    rw [e]
    unfold F32.lt
    simp [hp hn0]

theorem cpuUsage_of_unmatched {psz : Int} {proc : Option (List ProcEntry)}
    {prev : List ProcessInfo} {td : Nat} {tps : Int} {r : ProcessInfo}
    (hr : r ∈ getProcesses psz proc prev td tps)
    (hnew : ∀ p ∈ prev, p.pid ≠ r.pid) :
    r.cpuUsage = .fin 0 := by
  obtain ⟨_, _, hcpu⟩ := row_of_getProcesses hr
  rw [hcpu]
  exact prevCpuUsage_none r.pid r.lastCpuTime td tps prev hnew

/-! ## Per-process CPU percentage -/

/-- C3 (as amended): for a row whose PID is matched in the previous table and whose
cumulative ticks are lower than the stored ones, the unsigned delta wraps to
`ticks + 2^64 - stored` and `cpuUsage` is the float `delta / (totalDiff * ticksPerSec) * 100`
on that wrapped delta: it is never negative, and it is strictly positive, not `0.0`. -/
theorem C3_tick_rollback (psz : Int) (proc : Option (List ProcEntry))
    (prev : List ProcessInfo) (td : Nat) (tps : Int) (r p : ProcessInfo)
    (hr : r ∈ getProcesses psz proc prev td tps)
    (hfind : matchedPrev prev r.pid = some p)
    (hp : p.lastCpuTime < U64)
    (hlt : r.lastCpuTime < p.lastCpuTime) :
    r.cpuUsage = pctF32 (r.lastCpuTime + U64 - p.lastCpuTime) (mul64 td (longToU64 tps))
      ∧ F32.lt (.fin 0) r.cpuUsage = true
      ∧ r.cpuUsage ≠ .fin 0 := by
  obtain ⟨_, _, hcpu⟩ := row_of_getProcesses hr
  rw [prevCpuUsage_some r.pid r.lastCpuTime td tps p prev hfind, sub64_of_lt hp hlt] at hcpu
  have hpos := lt_zero_fin_pct (r.lastCpuTime + U64 - p.lastCpuTime)
    (mul64 td (longToU64 tps)) (by omega) (mul64_lt _ _) (by omega)
  rw [← hcpu] at hpos
  refine ⟨hcpu, hpos, ?_⟩
  intro h0
  rw [h0] at hpos
  revert hpos
  decide

/-- C3, witness: PID 42 stored with 500 ticks and read back with 150. -/
theorem C3_tick_rollback_witness :
    (procRow 4 [⟨42, "x", .fin 0, .fin 0, 500⟩] 400 100 42 ⟨"x", 100, 50, 10⟩).cpuUsage
        = pctF32 (150 + U64 - 500) (mul64 400 (longToU64 100))
      ∧ F32.lt (.fin 0)
          (procRow 4 [⟨42, "x", .fin 0, .fin 0, 500⟩] 400 100 42 ⟨"x", 100, 50, 10⟩).cpuUsage
        = true
      ∧ (procRow 4 [⟨42, "x", .fin 0, .fin 0, 500⟩] 400 100 42 ⟨"x", 100, 50, 10⟩).cpuUsage
        ≠ .fin 0 :=
  C3_tick_rollback 4 (some [⟨42, some ⟨"x", 100, 50, 10⟩⟩]) [⟨42, "x", .fin 0, .fin 0, 500⟩]
    400 100 (procRow 4 [⟨42, "x", .fin 0, .fin 0, 500⟩] 400 100 42 ⟨"x", 100, 50, 10⟩)
    ⟨42, "x", .fin 0, .fin 0, 500⟩ (List.mem_singleton.mpr rfl) rfl (by decide) (by decide)

/-- C3, counterexample: PID 42 is in the previous table with 500 ticks and is read with
`100 + 50 = 150` ticks; its row has `cpuUsage = 46116859153481728.0`, not `0.0`. -/
theorem C3_counterexample :
    (getProcesses 4 (some [⟨42, some ⟨"x", 100, 50, 10⟩⟩])
        [⟨42, "x", .fin 0, .fin 0, 500⟩] 400 100).map
      (fun r => (r.pid, r.lastCpuTime, r.cpuUsage))
      = [(42, 150, .fin 46116859153481728)] := by
  decide!

/-- C7: a row whose PID is not in the previous table has `cpuUsage` exactly `0.0`, whatever
its cumulative ticks, `totalDiff` and `ticksPerSec` are. -/
theorem C7_first_observation (psz : Int) (proc : Option (List ProcEntry))
    (prev : List ProcessInfo) (td : Nat) (tps : Int) (r : ProcessInfo)
    (hr : r ∈ getProcesses psz proc prev td tps)
    (hnew : ∀ p ∈ prev, p.pid ≠ r.pid) :
    r.cpuUsage = .fin 0 :=
  cpuUsage_of_unmatched hr hnew

/-- C7, witness: PID 42 appears with 123456 ticks next to a table that holds PID 7 only. -/
theorem C7_first_observation_witness :
    (procRow 4 [⟨7, "y", .fin 3, .fin 0, 9⟩] 0 100 42 ⟨"x", 123000, 456, 10⟩).cpuUsage
      = .fin 0 :=
  C7_first_observation 4 (some [⟨42, some ⟨"x", 123000, 456, 10⟩⟩])
    [⟨7, "y", .fin 3, .fin 0, 9⟩] 0 100
    (procRow 4 [⟨7, "y", .fin 3, .fin 0, 9⟩] 0 100 42 ⟨"x", 123000, 456, 10⟩)
    (List.mem_singleton.mpr rfl)
    (fun p hp => by
      rw [List.mem_singleton] at hp
      subst hp
      decide)

/-! ## Sorting lemmas -/

theorem linearInsert_perm {α : Type} (comp : α → α → Bool) (val : α) :
    ∀ l : List α, (linearInsert comp val l).Perm (val :: l)
  | [] => List.Perm.refl _
  | e :: rest => by
    unfold linearInsert
    split
    · exact ((linearInsert_perm comp val rest).cons e).trans (List.Perm.swap val e rest)
    · exact List.Perm.refl _

theorem insertionStep_perm {α : Type} (comp : α → α → Bool) (acc : List α) (val : α) :
    (insertionStep comp acc val).Perm (val :: acc) := by
  unfold insertionStep
  split
  · rename_i h
    rw [List.getLast?_eq_none_iff] at h
    subst h
    exact List.Perm.refl _
  · split
    · exact List.perm_append_singleton val acc
    · exact linearInsert_perm comp val acc

theorem foldl_insertionStep_perm {α : Type} (comp : α → α → Bool) :
    ∀ (l acc : List α), (l.foldl (insertionStep comp) acc).Perm (l ++ acc)
  | [], acc => List.Perm.refl _
  | v :: l, acc => by
    rw [List.foldl_cons]
    refine (foldl_insertionStep_perm comp l (insertionStep comp acc v)).trans ?_
    refine (List.Perm.append_left l (insertionStep_perm comp acc v)).trans ?_
    exact List.perm_middle

theorem stdSort_perm {α : Type} (comp : α → α → Bool) (l : List α) :
    (stdSort comp l).Perm l := by
  unfold stdSort
  refine (List.reverse_perm _).trans ?_
  simpa using foldl_insertionStep_perm comp l []

theorem le_of_gt_eq_false {a b : F32} (ha : a ≠ .nan) (hb : b ≠ .nan)
    (h : F32.gt b a = false) : F32.le b a = true := by
  cases a with
  | nan => exact absurd rfl ha
  | fin x =>
    cases b with
    | nan => exact absurd rfl hb
    | fin y => simpa [F32.gt, F32.lt, F32.le] using h
    | inf t => cases t <;> simp_all [F32.gt, F32.lt, F32.le]
  | inf s =>
    cases b with
    | nan => exact absurd rfl hb
    | fin y => cases s <;> simp_all [F32.gt, F32.lt, F32.le]
    | inf t => cases s <;> cases t <;> simp_all [F32.gt, F32.lt, F32.le]

theorem linearInsert_pairwise {α : Type} (comp : α → α → Bool) (P : α → Prop)
    (hasym : ∀ a b, P a → P b → comp a b = true → comp b a = false)
    (htrans : ∀ a b c, P a → P b → P c → comp a b = false → comp b c = false →
      comp a c = false)
    (val : α) (hv : P val) :
    ∀ acc : List α, (∀ a ∈ acc, P a) → acc.Pairwise (fun a b => comp a b = false) →
      (linearInsert comp val acc).Pairwise (fun a b => comp a b = false)
  | [], _, _ => by simp [linearInsert]
  | e :: rest, hP, hpw => by
    have he : P e := hP e (List.mem_cons_self _ _)
    have hrest : ∀ a ∈ rest, P a := fun a ha => hP a (List.mem_cons_of_mem _ ha)
    obtain ⟨hhead, htail⟩ := List.pairwise_cons.mp hpw
    unfold linearInsert
    by_cases hc : comp val e = true
    · rw [if_pos hc]
      refine List.pairwise_cons.mpr ⟨?_, linearInsert_pairwise comp P hasym htrans val hv
        rest hrest htail⟩
      intro z hz
      rcases List.mem_cons.mp ((linearInsert_perm comp val rest).subset hz) with h1 | h2
      · rw [h1]
        exact hasym val e hv he hc
      · exact hhead z h2
    · rw [if_neg hc]
      have hc2 : comp val e = false := by simpa using hc
      refine List.pairwise_cons.mpr ⟨?_, hpw⟩
      intro z hz
      rcases List.mem_cons.mp hz with h1 | h2
      · rw [h1]
        exact hc2
      · exact htrans val e z hv he (hrest z h2) hc2 (hhead z h2)

theorem insertionStep_pairwise {α : Type} (comp : α → α → Bool) (P : α → Prop)
    (hasym : ∀ a b, P a → P b → comp a b = true → comp b a = false)
    (htrans : ∀ a b c, P a → P b → P c → comp a b = false → comp b c = false →
      comp a c = false)
    (val : α) (hv : P val) (acc : List α) (hP : ∀ a ∈ acc, P a)
    (hpw : acc.Pairwise (fun a b => comp a b = false)) :
    (insertionStep comp acc val).Pairwise (fun a b => comp a b = false) := by
  unfold insertionStep
  split
  · simp
  · rename_i first hfirst
    split
    · rename_i hc
      have hsplit : acc.dropLast ++ [first] = acc := List.dropLast_append_getLast? first hfirst
      have hfm : first ∈ acc := by
        rw [← hsplit]
        simp
      have hPf : P first := hP first hfm
      have hfv : comp first val = false := hasym val first hv hPf hc
      rw [← hsplit] at hpw
      obtain ⟨_, _, hcross⟩ := List.pairwise_append.mp hpw
      rw [hsplit] at hpw
      refine List.pairwise_append.mpr ⟨hpw, by simp, ?_⟩
      intro a ha b hb
      rw [List.mem_singleton] at hb
      subst hb
      rw [← hsplit] at ha
      rcases List.mem_append.mp ha with h1 | h2
      · have hPa : P a := hP a (by rw [← hsplit]; exact List.mem_append_left _ h1)
        exact htrans a first b hPa hPf hv (hcross a h1 first (by simp)) hfv
      · rw [List.mem_singleton] at h2
        rw [h2]
        exact hfv
    · exact linearInsert_pairwise comp P hasym htrans val hv acc hP hpw

theorem foldl_insertionStep_pairwise {α : Type} (comp : α → α → Bool) (P : α → Prop)
    (hasym : ∀ a b, P a → P b → comp a b = true → comp b a = false)
    (htrans : ∀ a b c, P a → P b → P c → comp a b = false → comp b c = false →
      comp a c = false) :
    ∀ (l acc : List α), (∀ a ∈ l, P a) → (∀ a ∈ acc, P a) →
      acc.Pairwise (fun a b => comp a b = false) →
      (l.foldl (insertionStep comp) acc).Pairwise (fun a b => comp a b = false)
  | [], _, _, _, hpw => hpw
  | v :: l, acc, hl, hacc, hpw => by
    rw [List.foldl_cons]
    have hv : P v := hl v (List.mem_cons_self _ _)
    apply foldl_insertionStep_pairwise comp P hasym htrans l
    · exact fun a ha => hl a (List.mem_cons_of_mem _ ha)
    · intro a ha
      rcases List.mem_cons.mp ((insertionStep_perm comp acc v).subset ha) with h1 | h2
      · rw [h1]
        exact hv
      · exact hacc a h2
    · exact insertionStep_pairwise comp P hasym htrans v hv acc hacc hpw

/-- Insertion sort meets the postcondition of `std::sort` for a comparator that is
asymmetric and negatively transitive on the elements of the range. -/
theorem stdSort_post {α : Type} (comp : α → α → Bool) (P : α → Prop)
    (hasym : ∀ a b, P a → P b → comp a b = true → comp b a = false)
    (htrans : ∀ a b c, P a → P b → P c → comp a b = false → comp b c = false →
      comp a c = false)
    (l : List α) (hl : ∀ a ∈ l, P a) : StdSortPost comp l (stdSort comp l) := by
  refine ⟨stdSort_perm comp l, ?_⟩
  unfold stdSort
  rw [List.pairwise_reverse]
  exact foldl_insertionStep_pairwise comp P hasym htrans l [] hl (by simp) List.Pairwise.nil

theorem lt_asymm_F32 (a b : F32) (h : F32.lt a b = true) : F32.lt b a = false := by
  cases a with
  | nan => simp [F32.lt] at h
  | fin x =>
    cases b with
    | nan => simp [F32.lt] at h
    | fin y =>
      simp only [F32.lt, decide_eq_true_eq, decide_eq_false_iff_not, not_lt] at h ⊢
      exact h.le
    | inf t => cases t <;> simp_all [F32.lt]
  | inf s =>
    cases b with
    | nan => simp [F32.lt] at h
    | fin y => cases s <;> simp_all [F32.lt]
    | inf t => cases s <;> cases t <;> simp_all [F32.lt]

theorem lt_negTrans_F32 (a b c : F32) (ha : a ≠ .nan) (hb : b ≠ .nan) (hc : c ≠ .nan)
    (h1 : F32.lt b a = false) (h2 : F32.lt c b = false) : F32.lt c a = false := by
  cases a with
  | nan => exact absurd rfl ha
  | fin x =>
    cases b with
    | nan => exact absurd rfl hb
    | fin y =>
      cases c with
      | nan => exact absurd rfl hc
      | fin z =>
        simp only [F32.lt, decide_eq_false_iff_not, not_lt] at h1 h2 ⊢
        exact le_trans h1 h2
      | inf u => cases u <;> simp_all [F32.lt]
    | inf t =>
      cases c with
      | nan => exact absurd rfl hc
      | fin z => cases t <;> simp_all [F32.lt]
      | inf u => cases t <;> cases u <;> simp_all [F32.lt]
  | inf s =>
    cases b with
    | nan => exact absurd rfl hb
    | fin y =>
      cases c with
      | nan => exact absurd rfl hc
      | fin z => cases s <;> simp_all [F32.lt]
      | inf u => cases s <;> cases u <;> simp_all [F32.lt]
    | inf t =>
      cases c with
      | nan => exact absurd rfl hc
      | fin z => cases s <;> cases t <;> simp_all [F32.lt]
      | inf u => cases s <;> cases t <;> cases u <;> simp_all [F32.lt]

/-- On rows without NaN the comparator of `main` is a strict weak ordering, so insertion
sort meets the postcondition of `std::sort` on them. -/
theorem stdSort_post_cpuGreater (rows : List ProcessInfo)
    (h : ∀ r ∈ rows, r.cpuUsage ≠ .nan) :
    StdSortPost cpuGreater rows (stdSort cpuGreater rows) := by
  refine stdSort_post cpuGreater (fun r => r.cpuUsage ≠ .nan) ?_ ?_ rows h
  · intro a b _ _ hab
    exact lt_asymm_F32 _ _ hab
  · intro a b c ha hb hc h1 h2
    exact lt_negTrans_F32 a.cpuUsage b.cpuUsage c.cpuUsage ha hb hc h1 h2

/-- Insertion sort honours the contract of `std::sort`. -/
theorem stdSort_contract {α : Type} :
    StdSortContract (stdSort : (α → α → Bool) → List α → List α) := by
  intro comp l h
  exact stdSort_post comp (fun a => a ∈ l) h.1 h.2 l (fun a ha => ha)

/-- On rows without a NaN `cpuUsage` the comparator of `main` is a strict weak ordering. -/
theorem cpuGreater_strictWeakOn (rows : List ProcessInfo)
    (h : ∀ r ∈ rows, r.cpuUsage ≠ .nan) : StrictWeakOn cpuGreater rows := by
  refine ⟨?_, ?_⟩
  · intro a b _ _ hab
    exact lt_asymm_F32 _ _ hab
  · intro a b c ha hb hc h1 h2
    exact lt_negTrans_F32 a.cpuUsage b.cpuUsage c.cpuUsage (h a ha) (h b hb) (h c hc) h1 h2

/-! ## Display order -/

/-- C5 (as amended): for every function that honours the contract of `std::sort`, when no
row of the cycle has a NaN `cpuUsage`, the list `main` hands to `display` is a permutation
of the cycle's rows in which no row has a smaller `cpuUsage` than a later one; the
comparator looks at `cpuUsage` only, so rows of equal `cpuUsage` come in whatever order
`std::sort` leaves them. -/
theorem C5_display_order
    (sortFn : (ProcessInfo → ProcessInfo → Bool) → List ProcessInfo → List ProcessInfo)
    (hsort : StdSortContract sortFn)
    (tps psz : Int) (st : MonitorState) (s : Snapshot)
    (hnan : ∀ r ∈ getProcesses psz s.proc st.prevProcs
      (sub64 (readCPUStat s.cpu).total st.prevCPU.total) tps, r.cpuUsage ≠ .nan) :
    (mainCycle sortFn tps psz st s).2.processes.Perm
        (getProcesses psz s.proc st.prevProcs
          (sub64 (readCPUStat s.cpu).total st.prevCPU.total) tps)
      ∧ (mainCycle sortFn tps psz st s).2.processes.Pairwise
          (fun a b => F32.le b.cpuUsage a.cpuUsage = true) := by
  obtain ⟨hperm, hpw⟩ := hsort cpuGreater _ (cpuGreater_strictWeakOn _ hnan)
  refine ⟨hperm, ?_⟩
  refine List.Pairwise.imp_of_mem ?_ hpw
  intro a b ha hb hab
  exact le_of_gt_eq_false (hnan a (hperm.subset ha)) (hnan b (hperm.subset hb)) hab

/-- C5, witness: the rows with CPU% `[10, 10, 50]` and PIDs `[200, 100, 300]`, sorted by
insertion sort, come out with CPU% `[50, 10, 10]`. -/
theorem C5_display_order_witness :
    ((mainCycle stdSort 100 4 tieState tieSnapshot).2.processes.Perm
        (getProcesses 4 tieSnapshot.proc tieState.prevProcs
          (sub64 (readCPUStat tieSnapshot.cpu).total tieState.prevCPU.total) 100)
      ∧ (mainCycle stdSort 100 4 tieState tieSnapshot).2.processes.Pairwise
          (fun a b => F32.le b.cpuUsage a.cpuUsage = true))
    ∧ (mainCycle stdSort 100 4 tieState tieSnapshot).2.processes.map (fun r => r.cpuUsage)
        = [.fin 50, .fin 10, .fin 10] :=
  ⟨C5_display_order stdSort stdSort_contract 100 4 tieState tieSnapshot (by decide!),
   by decide!⟩

/-- C5, counterexample: the cycle's rows have CPU% `[10, 10, 50]` and PIDs
`[200, 100, 300]`; the order `[300, 200, 100]`, which insertion sort produces, meets the
postcondition of `std::sort` for the comparator of `main` and is not the order
`[300, 100, 200]` with ties broken by ascending PID. -/
theorem C5_counterexample :
    (mainCycle stdSort 100 4 tieState tieSnapshot).1.prevProcs.map
        (fun r => (r.pid, r.cpuUsage)) = [(200, .fin 10), (100, .fin 10), (300, .fin 50)]
      ∧ StdSortPost cpuGreater (mainCycle stdSort 100 4 tieState tieSnapshot).1.prevProcs
          (mainCycle stdSort 100 4 tieState tieSnapshot).2.processes
      ∧ (mainCycle stdSort 100 4 tieState tieSnapshot).2.processes.map (fun r => r.pid)
          = [300, 200, 100]
      ∧ (mainCycle stdSort 100 4 tieState tieSnapshot).2.processes.map (fun r => r.pid)
          ≠ [300, 100, 200] := by
  unfold StdSortPost
  decide!

/-! ## Pruning of exited processes -/

end SystemMonitor
